import Mathlib

/-!
Verification of the consensus-and-synchronization core of iotex-core:
the rolldpos2 epoch/round context (`calcEpochNumAndHeight`, `getNumSubEpochs`,
`rotatedProposer`) and the blocksync block buffer (`Flush`,
`GetBlocksIntervalsToSync`, `CommitHeight`).

The embedding keeps the Go control flow: `uint64`/`uint` values become `Nat`,
the height-keyed `map[uint64]*block.Block` becomes the `Finset Nat` of its
keys (the stored `block.Block` is an external collaborator whose only
observable read by this code is `Height()`, which always equals the key), and
fallible collaborator calls become `Except` values.
-/

/-! ## rolldpos2: epoch/round context -/

/-- Errors surfaced by the external collaborators of `rollDPoSCtx`:
the chain (`ChainUnavailable`), the delegate pool
(`DelegateSourceFailure`), and `delegate.ErrZeroDelegate`. -/
inductive RErr
  | chainUnavailable
  | delegateSourceFailure
  | zeroDelegate
deriving DecidableEq, Repr

/-- The `blockchain.Blockchain` collaborator as seen by rolldpos2:
only `TipHeight() (uint64, error)` is consulted. -/
structure ChainModel where
  tipHeight : Except RErr Nat
deriving Repr

/-- The `delegate.Pool` collaborator: only `NumDelegatesPerEpoch() (uint, error)`
is consulted by the modelled operations. -/
structure DelegatePool where
  numDelegatesPerEpoch : Except RErr Nat
deriving Repr

/-- The `config.RollDPoS` surface consumed: `NumSubEpochs uint`. -/
structure RollDPoSConfig where
  numSubEpochs : Nat
deriving DecidableEq, Repr

/-- Go struct `epochCtx`: context data for the current epoch (rolldpos.go). -/
structure epochCtx where
  num : Nat
  height : Nat
  numSubEpochs : Nat
  delegates : List String
deriving DecidableEq, Repr

/-- Go struct `rollDPoSCtx` restricted to the fields the modelled operations read. -/
structure rollDPoSCtx where
  cfg : RollDPoSConfig
  chain : ChainModel
  pool : DelegatePool
  epoch : epochCtx
deriving Repr

/-- Go function `getNumSubEpochs` (rolldpos.go:65-71): `num := 1; if cfg.NumSubEpochs > 0
\x7b num = cfg.NumSubEpochs \x7d; return num`. -/
def getNumSubEpochs (ctx : rollDPoSCtx) : Nat :=
  if ctx.cfg.numSubEpochs > 0 then ctx.cfg.numSubEpochs else 1

/-- Go function `calcEpochNumAndHeight` (rolldpos.go:42-55). -/
def calcEpochNumAndHeight (ctx : rollDPoSCtx) : Except RErr (Nat × Nat) :=
  match ctx.chain.tipHeight with
  | .error e => .error e
  | .ok height =>
    match ctx.pool.numDelegatesPerEpoch with
    | .error e => .error e
    | .ok numDlgs =>
      let subEpochNum := getNumSubEpochs ctx
      let epochNum := height / (numDlgs * subEpochNum) + 1
      let epochHeight := numDlgs * subEpochNum * (epochNum - 1) + 1
      .ok (epochNum, epochHeight)

/-- Go function `rotatedProposer` (rolldpos.go:75-87): next height is `tip + 1`; an empty
delegate list fails with `delegate.ErrZeroDelegate`; otherwise the proposer is
`delegates[height % numDelegates]`. -/
def rotatedProposer (ctx : rollDPoSCtx) : Except RErr (String × Nat) :=
  match ctx.chain.tipHeight with
  | .error e => .error e
  | .ok height =>
    let height := height + 1
    let numDelegates := ctx.epoch.delegates.length
    if hz : numDelegates = 0 then
      .error .zeroDelegate
    else
      .ok (ctx.epoch.delegates.get
            ⟨height % numDelegates, Nat.mod_lt _ (Nat.pos_of_ne_zero hz)⟩,
          height)

/-- An example context: `delegates = [A,B,C]`, `tipHeight() = 7`
(spec §8 example scenario). -/
def exampleRotationCtx : rollDPoSCtx :=
  { cfg := { numSubEpochs := 0 }
  , chain := { tipHeight := .ok 7 }
  , pool := { numDelegatesPerEpoch := .ok 3 }
  , epoch := { num := 1, height := 1, numSubEpochs := 1, delegates := ["A", "B", "C"] } }

/-- An example context for the epoch computation: configured `numSubEpochs = 0`,
`numDelegates = 24`, `tipHeight = 0` (spec §8 example scenario). -/
def exampleEpochCtx : rollDPoSCtx :=
  { cfg := { numSubEpochs := 0 }
  , chain := { tipHeight := .ok 0 }
  , pool := { numDelegatesPerEpoch := .ok 24 }
  , epoch := { num := 1, height := 1, numSubEpochs := 1, delegates := [] } }

/-- C7: with the chain tip available, `rotatedProposer` fails with
`ErrZeroDelegate` exactly when the delegate list is empty; otherwise it
returns `(delegates[(tip+1) % numDelegates], tip+1)`; and it is a
deterministic function of the tip height and the delegate list alone. -/
theorem rotatedProposer_spec (ctx : rollDPoSCtx) (t : Nat)
    (htip : ctx.chain.tipHeight = Except.ok t) :
    (rotatedProposer ctx = .error .zeroDelegate ↔ ctx.epoch.delegates = []) ∧
    (ctx.epoch.delegates ≠ [] →
      rotatedProposer ctx =
        .ok (ctx.epoch.delegates.getD ((t + 1) % ctx.epoch.delegates.length) "", t + 1)) ∧
    (∀ ctx2 : rollDPoSCtx, ctx2.chain.tipHeight = ctx.chain.tipHeight →
      ctx2.epoch.delegates = ctx.epoch.delegates →
      rotatedProposer ctx2 = rotatedProposer ctx) := by
  refine ⟨?_, ?_, ?_⟩
  · unfold rotatedProposer
    rw [htip]
    constructor
    · intro h
      by_contra hne
      have hlen : ctx.epoch.delegates.length ≠ 0 := by
        simpa [List.length_eq_zero] using hne
      simp [hlen] at h
    · intro h
      simp [h]
  · intro hne
    have hlen : ctx.epoch.delegates.length ≠ 0 := by
      simpa [List.length_eq_zero] using hne
    unfold rotatedProposer
    rw [htip]
    simp only [hlen, dite_false, dif_neg]
    have hlt : (t + 1) % ctx.epoch.delegates.length < ctx.epoch.delegates.length :=
      Nat.mod_lt _ (Nat.pos_of_ne_zero hlen)
    rw [List.getD_eq_get _ _ hlt]
  · intro ctx2 h1 h2
    unfold rotatedProposer
    rw [h1, htip]
    have hlen : ctx2.epoch.delegates.length = ctx.epoch.delegates.length := by rw [h2]
    by_cases hz : ctx.epoch.delegates.length = 0
    · simp [hz, hlen]
    · simp only [hlen, hz, dif_neg, not_false_iff]
      congr 2
      apply List.get_of_eq h2

/-- C7's witness: the theorem instantiated at the example rotation context. -/
theorem rotatedProposer_spec_witness :
    rotatedProposer exampleRotationCtx =
      .ok ((exampleRotationCtx.epoch.delegates).getD ((7 + 1) % 3) "", 8) :=
  (rotatedProposer_spec exampleRotationCtx 7 rfl).2.1 (by decide)

/-- C8 counterexample: with `delegates = [A,B,C]` and `tipHeight() = 7`, the
code returns `delegates[8 % 3] = delegates[2] = "C"` (zero-based indexing),
not `"B"` as the spec's example asserts. -/
theorem rotatedProposer_returns_C_not_B :
    rotatedProposer exampleRotationCtx = .ok ("C", 8) ∧
    (("C", (8 : Nat)) ≠ ("B", (8 : Nat))) := by
  constructor
  · rfl
  · decide

/-- C8 (amended): with `delegates = [A,B,C]` and `tipHeight() = 7`,
`rotatedProposer` returns `(C, 8)`. -/
theorem rotatedProposer_example : rotatedProposer exampleRotationCtx = .ok ("C", 8) := rfl

/-- C9: with chain tip `t` and `numDelegatesPerEpoch = n ≥ 1`,
`getNumSubEpochs` is `max(configured, 1)` and `calcEpochNumAndHeight` returns
`epochNum = t / (n * subEpochs) + 1` and
`epochStart = n * subEpochs * (epochNum - 1) + 1`. -/
theorem calcEpochNumAndHeight_spec (ctx : rollDPoSCtx) (t n : Nat)
    (htip : ctx.chain.tipHeight = Except.ok t)
    (hn : ctx.pool.numDelegatesPerEpoch = Except.ok n)
    (_hn1 : 1 ≤ n) :
    getNumSubEpochs ctx = max ctx.cfg.numSubEpochs 1 ∧
    calcEpochNumAndHeight ctx =
      .ok (t / (n * max ctx.cfg.numSubEpochs 1) + 1,
           n * max ctx.cfg.numSubEpochs 1 * (t / (n * max ctx.cfg.numSubEpochs 1)) + 1) := by
  have hsub : getNumSubEpochs ctx = max ctx.cfg.numSubEpochs 1 := by
    unfold getNumSubEpochs
    rcases Nat.eq_zero_or_pos ctx.cfg.numSubEpochs with h0 | hpos
    · simp [h0]
    · simp [hpos, Nat.max_eq_left hpos]
  refine ⟨hsub, ?_⟩
  unfold calcEpochNumAndHeight
  rw [htip, hn, hsub]
  simp

/-- C9's witness: configured `numSubEpochs = 0`, `numDelegates = 24`,
`tipHeight = 0` gives `effectiveSubEpochCount = 1` and epoch `(1, 1)`. -/
theorem calcEpochNumAndHeight_spec_witness :
    getNumSubEpochs exampleEpochCtx = 1 ∧
    calcEpochNumAndHeight exampleEpochCtx = .ok (1, 1) := by
  have h := calcEpochNumAndHeight_spec exampleEpochCtx 0 24 rfl rfl (by decide)
  exact ⟨h.1, h.2⟩

/-- C10: the divisor `numDlgs * getNumSubEpochs` in `calcEpochNumAndHeight` is
nonzero whenever the delegate source reports `n ≥ 1` delegates, because
`getNumSubEpochs` always returns at least 1; the hypothesis `n ≥ 1` is
necessary, since `n = 0` makes the divisor zero. -/
theorem calcEpochNumAndHeight_divisor_nonzero (ctx : rollDPoSCtx) (n : Nat) :
    1 ≤ getNumSubEpochs ctx ∧
    (ctx.pool.numDelegatesPerEpoch = Except.ok n → 1 ≤ n →
      n * getNumSubEpochs ctx ≠ 0) ∧
    (n = 0 → n * getNumSubEpochs ctx = 0) := by
  have h1 : 1 ≤ getNumSubEpochs ctx := by
    unfold getNumSubEpochs
    split <;> omega
  refine ⟨h1, ?_, ?_⟩
  · intro _ hn
    have := Nat.mul_le_mul hn h1
    omega
  · intro h0
    simp [h0]

/-- C10's witness: at the example epoch context (24 delegates), the divisor is
nonzero; and with 0 delegates it is zero. -/
theorem calcEpochNumAndHeight_divisor_nonzero_witness :
    1 ≤ getNumSubEpochs exampleEpochCtx ∧
    24 * getNumSubEpochs exampleEpochCtx ≠ 0 ∧
    0 * getNumSubEpochs exampleEpochCtx = 0 := by
  have h := calcEpochNumAndHeight_divisor_nonzero exampleEpochCtx 24
  have h0 := calcEpochNumAndHeight_divisor_nonzero exampleEpochCtx 0
  exact ⟨h.1, h.2.1 rfl (by decide), h0.2.2 rfl⟩

/-! ## blocksync: the block admission buffer

`commitBlock(bc, ap, cs, blk)` and the `blockchain.Blockchain` collaborator
are outside `src/`.  Modelled from the spec: `ChainView.commit(Block)` either
succeeds — after which the chain's committed tip is the committed block's
height — or fails with `CommitFailure` and leaves the tip unchanged (spec §2
data flow, §6 `ChainView.commit`, §7 `CommitFailure`).  Each `Flush` call
carries a commit oracle `ok : Nat → Bool` giving the success of committing
the block at each height during that call's drain.
-/

/-- Go type `bCheckinResult` (part_000:21-29). -/
inductive bCheckinResult
  | valid
  | lower
  | existing
  | higher
  | skipNil
deriving DecidableEq, Repr

/-- A candidate block as observed by `blockBuffer`: the code reads only
`blk.Height()`. -/
structure Blk where
  height : Nat
deriving DecidableEq, Repr

/-- Go struct `blockBuffer` (part_000:32-40) together with the chain collaborator's
committed tip.  `blocks` is the key set of the height-keyed pending map
(the stored block at key `h` always has height `h`); `tipHeight` is what
`b.bc.TipHeight()` returns; `size` is the admission window. -/
structure blockBuffer where
  blocks : Finset Nat
  tipHeight : Nat
  size : Nat
  commitHeight : Nat
deriving DecidableEq

/-- Go method `CommitHeight` (part_000:43-45): the last commit block height. -/
def CommitHeight (b : blockBuffer) : Nat := b.commitHeight

/-- The contiguous drain loop of `Flush` (part_000:72-85), one fuel unit per
loop iteration (the Go loop runs `heightToSync` from `confirmedHeight+1` to
at most `confirmedHeight+size`, so `size` fuel suffices exactly).  Returns
the trace of commit attempts `(height, succeeded)`, the post-drain buffer,
and the final value of `heightToSync`. -/
def drainLoop (ok : Nat → Bool) : Nat → Nat → blockBuffer → List (Nat × Bool) × blockBuffer × Nat
  | 0, heightToSync, b => ([], b, heightToSync)
  | fuel + 1, heightToSync, b =>
    if heightToSync ∈ b.blocks then
      let b1 := { b with blocks := b.blocks.erase heightToSync }
      if ok heightToSync then
        let r := drainLoop ok fuel (heightToSync + 1)
          { b1 with commitHeight := heightToSync, tipHeight := heightToSync }
        ((heightToSync, true) :: r.1, r.2)
      else
        ([(heightToSync, false)], b1, heightToSync)
    else
      ([], b, heightToSync)

/-- Go method `Flush` (part_000:48-98).  Returns the pair the Go function returns, the
buffer-plus-chain state afterwards, and the trace of heights passed to
`ChainView.commit` during this call (with each attempt's success). -/
def Flush (ok : Nat → Bool) (blk : Option Blk) (b : blockBuffer) :
    (Bool × bCheckinResult) × blockBuffer × List (Nat × Bool) :=
  match blk with
  | none => ((false, .skipNil), b, [])
  | some blk =>
    let confirmedHeight := b.tipHeight
    let blkHeight := blk.height
    if blkHeight ≤ confirmedHeight then ((false, .lower), b, [])
    else if blkHeight ∈ b.blocks then ((false, .existing), b, [])
    else if blkHeight > confirmedHeight + b.size then ((false, .higher), b, [])
    else
      let b0 := { b with blocks := insert blkHeight b.blocks }
      let r := drainLoop ok b.size (confirmedHeight + 1) b0
      let b1 := r.2.1
      let heightToSync := r.2.2
      let b2 :=
        if b1.blocks.card > b.size * 2 then
          { b1 with blocks := b1.blocks.filter (fun h => ¬ h ≤ confirmedHeight) }
        else b1
      ((decide (heightToSync > blkHeight), .valid), b2, r.1)

/-- A sequence of `Flush` calls, each with its own commit oracle and block;
returns the final state and the concatenated commit trace. -/
def runFlushes : List ((Nat → Bool) × Option Blk) → blockBuffer → blockBuffer × List (Nat × Bool)
  | [], b => (b, [])
  | c :: cs, b =>
    let r := Flush c.1 c.2 b
    let rest := runFlushes cs r.2.1
    (rest.1, r.2.2 ++ rest.2)

/-- Go struct `syncBlocksInterval`: a closed interval of heights to request. -/
structure syncBlocksInterval where
  Start : Nat
  End : Nat
deriving DecidableEq, Repr

/-- The scanning loop of `GetBlocksIntervalsToSync` (part_000:120-132), over
the list of heights to scan, with loop state `(start, startSet, bi)`. -/
def gbitsLoop (blocks : Finset Nat) :
    List Nat → Nat → Bool → List syncBlocksInterval → Nat × Bool × List syncBlocksInterval
  | [], start, startSet, bi => (start, startSet, bi)
  | h :: hs, start, startSet, bi =>
    if h ∉ blocks then
      if !startSet then gbitsLoop blocks hs h true bi
      else gbitsLoop blocks hs start startSet bi
    else
      if startSet then gbitsLoop blocks hs start false (bi ++ [⟨start, h - 1⟩])
      else gbitsLoop blocks hs start startSet bi

/-- Go method `GetBlocksIntervalsToSync` (part_000:101-142). -/
def GetBlocksIntervalsToSync (b : blockBuffer) (targetHeight : Nat) : List syncBlocksInterval :=
  let confirmedHeight := b.tipHeight
  if confirmedHeight ≥ targetHeight then []
  else
    let target :=
      if targetHeight > confirmedHeight + b.size then confirmedHeight + b.size
      else targetHeight
    let r := gbitsLoop b.blocks (List.range' (confirmedHeight + 1) (target - confirmedHeight)) 0 false []
    let start := r.1
    let startSet := r.2.1
    let bi := r.2.2
    if target ∉ b.blocks then
      bi ++ [⟨(if !startSet then target else start), target⟩]
    else bi

section BufferExamples

/-- Spec §8 scenario: `windowSize = 5`, `tipHeight() = 10`; flushing height 12
leaves a gap at 11 so the drain makes no progress. -/
example :
    Flush (fun _ => true) (some ⟨12⟩) ⟨∅, 10, 5, 10⟩ =
      ((false, .valid), ⟨{12}, 10, 5, 10⟩, []) := by decide

/-- Spec §8 scenario continued: flushing height 11 then drains 11 and 12. -/
example :
    Flush (fun _ => true) (some ⟨11⟩) ⟨{12}, 10, 5, 10⟩ =
      ((true, .valid), ⟨∅, 12, 5, 12⟩, [(11, true), (12, true)]) := by decide

/-- Spec §8 scenario: `intervalsToSync(16)` before either flush. -/
example : GetBlocksIntervalsToSync ⟨∅, 10, 5, 10⟩ 16 = [⟨11, 15⟩] := by decide

/-- Spec §8 scenario: `intervalsToSync(16)` after both flushes... the spec says
after flushing only height 12 it is the gaps around 12. -/
example : GetBlocksIntervalsToSync ⟨{12}, 10, 5, 10⟩ 16 = [⟨11, 11⟩, ⟨13, 15⟩] := by decide

end BufferExamples

/-! ## Characterization of the drain loop -/

/-- The drain loop, started at the height just above the chain tip, commits a
contiguous run of `m` pending heights `h, h+1, ..., h+m-1` and then stops —
either cleanly (gap or window end) or because the commit of `h+m` failed
(`failed`), in which case `h+m` has still been removed from the pending set.
The chain tip advances by `m`, `commitHeight` becomes the last committed
height when any commit happened, and the final `heightToSync` is `h + m`. -/
theorem drainLoop_char (ok : Nat → Bool) :
    ∀ (fuel h : Nat) (b : blockBuffer), b.tipHeight + 1 = h →
    ∃ (m : Nat) (failed : Bool),
      (drainLoop ok fuel h b).1 =
        (List.range' h m).map (fun x => (x, true)) ++
          (if failed then [(h + m, false)] else []) ∧
      (drainLoop ok fuel h b).2.2 = h + m ∧
      (drainLoop ok fuel h b).2.1.tipHeight = b.tipHeight + m ∧
      (drainLoop ok fuel h b).2.1.size = b.size ∧
      (drainLoop ok fuel h b).2.1.commitHeight =
        (if m = 0 then b.commitHeight else b.tipHeight + m) ∧
      (∀ x : Nat, x ∈ (drainLoop ok fuel h b).2.1.blocks ↔
        (x ∈ b.blocks ∧ ¬ (h ≤ x ∧ x < h + m + (if failed then 1 else 0)))) := by
  intro fuel
  induction fuel with
  | zero =>
    intro h b hh
    refine ⟨0, false, ?_, ?_, ?_, ?_, ?_, ?_⟩ <;>
      simp [drainLoop] <;> omega
  | succ n ih =>
    intro h b hh
    by_cases hmem : h ∈ b.blocks
    · by_cases hok : ok h = true
      · obtain ⟨m, failed, htr, hfin, htip, hsize, hcH, hmemb⟩ :=
          ih (h + 1) ⟨b.blocks.erase h, h, b.size, h⟩ rfl
        have hstep :
            drainLoop ok (n + 1) h b =
              ((h, true) :: (drainLoop ok n (h + 1) ⟨b.blocks.erase h, h, b.size, h⟩).1,
               (drainLoop ok n (h + 1) ⟨b.blocks.erase h, h, b.size, h⟩).2) := by
          simp [drainLoop, hmem, hok]
        refine ⟨m + 1, failed, ?_, ?_, ?_, ?_, ?_, ?_⟩
        · rw [hstep]
          simp only [List.range'_succ, List.map_cons, List.cons_append, htr]
          have : h + 1 + m = h + (m + 1) := by omega
          rw [this]
        · rw [hstep]
          simp only
          rw [hfin]; omega
        · rw [hstep]
          simp only
          rw [htip]; simp; omega
        · rw [hstep]
          simp only
          rw [hsize]
        · rw [hstep]
          simp only
          rw [hcH]
          rcases Nat.eq_zero_or_pos m with h0 | hpos
          · simp [h0]; omega
          · have hm : m ≠ 0 := by omega
            simp [hm]
            omega
        · intro x
          rw [hstep]
          simp only
          rw [hmemb x]
          by_cases hx : x ∈ b.blocks <;>
            simp [Finset.mem_erase, hx] <;> omega
      · have hokf : ok h = false := by
          cases hb : ok h
          · rfl
          · exact absurd hb hok
        refine ⟨0, true, ?_, ?_, ?_, ?_, ?_, ?_⟩ <;>
          simp [drainLoop, hmem, hokf]
        intro x
        by_cases hx : x ∈ b.blocks <;> simp [Finset.mem_erase, hx] <;> omega
    · refine ⟨0, false, ?_, ?_, ?_, ?_, ?_, ?_⟩ <;>
        simp [drainLoop, hmem] <;> omega

/-! ## Characterization of Flush -/

theorem Flush_none (ok : Nat → Bool) (b : blockBuffer) :
    Flush ok none b = ((false, .skipNil), b, []) := rfl

theorem Flush_lower (ok : Nat → Bool) (blk : Blk) (b : blockBuffer)
    (h : blk.height ≤ b.tipHeight) :
    Flush ok (some blk) b = ((false, .lower), b, []) := by
  simp [Flush, h]

theorem Flush_existing (ok : Nat → Bool) (blk : Blk) (b : blockBuffer)
    (h1 : b.tipHeight < blk.height) (h2 : blk.height ∈ b.blocks) :
    Flush ok (some blk) b = ((false, .existing), b, []) := by
  have hn1 : ¬ (blk.height ≤ b.tipHeight) := by omega
  simp [Flush, hn1, h2]

theorem Flush_higher (ok : Nat → Bool) (blk : Blk) (b : blockBuffer)
    (h1 : b.tipHeight < blk.height) (h2 : blk.height ∉ b.blocks)
    (h3 : b.tipHeight + b.size < blk.height) :
    Flush ok (some blk) b = ((false, .higher), b, []) := by
  have hn1 : ¬ (blk.height ≤ b.tipHeight) := by omega
  simp [Flush, hn1, h2, h3]

/-- Only the `Valid` branch of `Flush` reaches the drain; its preconditions
follow from the returned outcome. -/
theorem Flush_valid_inv (ok : Nat → Bool) (blk : Blk) (b : blockBuffer)
    (h : (Flush ok (some blk) b).1.2 = .valid) :
    b.tipHeight < blk.height ∧ blk.height ∉ b.blocks ∧ blk.height ≤ b.tipHeight + b.size := by
  simp only [Flush] at h
  split_ifs at h with h1 h2 h3 h4 <;>
    first
      | exact ⟨by omega, h2, by omega⟩
      | simp at h

/-- Full characterization of a `Valid` flush: the block is inserted, the drain
commits the contiguous run of `m` heights starting at `tip+1` (possibly
removing one further height on a failed commit), and the leak-guard cleanup
(`clean`) additionally drops any entry at or below the pre-call tip. -/
theorem Flush_valid_char (ok : Nat → Bool) (blk : Blk) (b : blockBuffer)
    (h1 : b.tipHeight < blk.height) (h2 : blk.height ∉ b.blocks)
    (h3 : blk.height ≤ b.tipHeight + b.size) :
    ∃ (m : Nat) (failed clean : Bool),
      (Flush ok (some blk) b).1 = (decide (blk.height < b.tipHeight + 1 + m), .valid) ∧
      (Flush ok (some blk) b).2.2 =
        (List.range' (b.tipHeight + 1) m).map (fun x => (x, true)) ++
          (if failed then [(b.tipHeight + 1 + m, false)] else []) ∧
      (Flush ok (some blk) b).2.1.tipHeight = b.tipHeight + m ∧
      (Flush ok (some blk) b).2.1.size = b.size ∧
      (Flush ok (some blk) b).2.1.commitHeight =
        (if m = 0 then b.commitHeight else b.tipHeight + m) ∧
      (∀ x : Nat, x ∈ (Flush ok (some blk) b).2.1.blocks ↔
        ((x = blk.height ∨ x ∈ b.blocks) ∧
          ¬ (b.tipHeight + 1 ≤ x ∧ x < b.tipHeight + 1 + m + (if failed then 1 else 0)) ∧
          (clean = true → b.tipHeight < x))) := by
  have hn1 : ¬ (blk.height ≤ b.tipHeight) := by omega
  have hn3 : ¬ (blk.height > b.tipHeight + b.size) := by omega
  obtain ⟨m, failed, htr, hfin, htip, hsize, hcH, hmemb⟩ :=
    drainLoop_char ok b.size (b.tipHeight + 1)
      ⟨insert blk.height b.blocks, b.tipHeight, b.size, b.commitHeight⟩ rfl
  have hF :
      Flush ok (some blk) b =
        ((decide ((drainLoop ok b.size (b.tipHeight + 1)
              ⟨insert blk.height b.blocks, b.tipHeight, b.size, b.commitHeight⟩).2.2 > blk.height),
          .valid),
         (if (drainLoop ok b.size (b.tipHeight + 1)
              ⟨insert blk.height b.blocks, b.tipHeight, b.size, b.commitHeight⟩).2.1.blocks.card >
              b.size * 2 then
            { (drainLoop ok b.size (b.tipHeight + 1)
                ⟨insert blk.height b.blocks, b.tipHeight, b.size, b.commitHeight⟩).2.1 with
              blocks := (drainLoop ok b.size (b.tipHeight + 1)
                ⟨insert blk.height b.blocks, b.tipHeight, b.size, b.commitHeight⟩).2.1.blocks.filter
                  (fun h => ¬ h ≤ b.tipHeight) }
          else (drainLoop ok b.size (b.tipHeight + 1)
              ⟨insert blk.height b.blocks, b.tipHeight, b.size, b.commitHeight⟩).2.1),
         (drainLoop ok b.size (b.tipHeight + 1)
            ⟨insert blk.height b.blocks, b.tipHeight, b.size, b.commitHeight⟩).1) := by
    simp only [Flush]
    rw [if_neg hn1, if_neg h2, if_neg hn3]
  by_cases hclean : (drainLoop ok b.size (b.tipHeight + 1)
      ⟨insert blk.height b.blocks, b.tipHeight, b.size, b.commitHeight⟩).2.1.blocks.card >
      b.size * 2
  · refine ⟨m, failed, true, ?_, ?_, ?_, ?_, ?_, ?_⟩
    · rw [hF]; simp only; rw [hfin]
    · rw [hF]; simp only; exact htr
    · rw [hF]; simp only [if_pos hclean]; exact htip
    · rw [hF]; simp only [if_pos hclean]; exact hsize
    · rw [hF]; simp only [if_pos hclean]; exact hcH
    · intro x
      rw [hF]
      simp only [if_pos hclean, Finset.mem_filter]
      rw [hmemb x]
      by_cases hx : x ∈ b.blocks <;> by_cases hxb : x = blk.height <;>
        simp [Finset.mem_insert, hx, hxb] <;> omega
  · refine ⟨m, failed, false, ?_, ?_, ?_, ?_, ?_, ?_⟩
    · rw [hF]; simp only; rw [hfin]
    · rw [hF]; simp only; exact htr
    · rw [hF]; simp only [if_neg hclean]; exact htip
    · rw [hF]; simp only [if_neg hclean]; exact hsize
    · rw [hF]; simp only [if_neg hclean]; exact hcH
    · intro x
      rw [hF]
      simp only [if_neg hclean]
      rw [hmemb x]
      by_cases hx : x ∈ b.blocks <;> by_cases hxb : x = blk.height <;>
        simp [Finset.mem_insert, hx, hxb] <;> omega

/-! ## Claim theorems about Flush -/

/-- C3: `Flush` classifies by the first matching rule, in order: nil block →
`SkipNil` (no state change); height at or below the tip → `Lower` (discarded);
height already pending → `Existing` (discarded); height beyond
`tip + windowSize` → `Higher` (discarded); otherwise `Valid`, and the block is
inserted into pending (after the call it is either still pending or was passed
to commit by the drain).  In particular, when every pending height lies inside
the window, a block at `tip + windowSize + 1` is always `Higher` and never
inserted. -/
theorem Flush_classification (b : blockBuffer) (ok : Nat → Bool) :
    (Flush ok none b = ((false, .skipNil), b, [])) ∧
    (∀ blk : Blk, blk.height ≤ b.tipHeight →
      Flush ok (some blk) b = ((false, .lower), b, [])) ∧
    (∀ blk : Blk, b.tipHeight < blk.height → blk.height ∈ b.blocks →
      Flush ok (some blk) b = ((false, .existing), b, [])) ∧
    (∀ blk : Blk, b.tipHeight < blk.height → blk.height ∉ b.blocks →
      b.tipHeight + b.size < blk.height →
      Flush ok (some blk) b = ((false, .higher), b, [])) ∧
    (∀ blk : Blk, b.tipHeight < blk.height → blk.height ∉ b.blocks →
      blk.height ≤ b.tipHeight + b.size →
      (Flush ok (some blk) b).1.2 = .valid ∧
      (blk.height ∈ (Flush ok (some blk) b).2.1.blocks ∨
        blk.height ∈ ((Flush ok (some blk) b).2.2).map Prod.fst)) ∧
    ((∀ x ∈ b.blocks, x ≤ b.tipHeight + b.size) →
      ∀ blk : Blk, blk.height = b.tipHeight + b.size + 1 →
      Flush ok (some blk) b = ((false, .higher), b, [])) := by
  refine ⟨Flush_none ok b, fun blk h => Flush_lower ok blk b h,
    fun blk h1 h2 => Flush_existing ok blk b h1 h2,
    fun blk h1 h2 h3 => Flush_higher ok blk b h1 h2 h3, ?_, ?_⟩
  · intro blk h1 h2 h3
    obtain ⟨m, failed, clean, hres, htr, htip, hsize, hcH, hmemb⟩ :=
      Flush_valid_char ok blk b h1 h2 h3
    refine ⟨by rw [hres], ?_⟩
    by_cases hin : b.tipHeight + 1 ≤ blk.height ∧
        blk.height < b.tipHeight + 1 + m + (if failed then 1 else 0)
    · right
      rw [htr]
      simp only [List.map_append, List.map_map, List.mem_append]
      by_cases hlt : blk.height < b.tipHeight + 1 + m
      · left
        simp only [List.mem_map, Function.comp, List.mem_range'_1]
        exact ⟨blk.height, ⟨by omega, by omega⟩, rfl⟩
      · right
        cases failed with
        | false => exfalso; simp at hin; omega
        | true => simp at hin ⊢; omega
    · left
      rw [hmemb]
      exact ⟨Or.inl rfl, fun hc => hin hc, fun _ => h1⟩
  · intro hw blk hh
    exact Flush_higher ok blk b (by omega)
      (fun hc => by have := hw blk.height hc; omega) (by omega)

/-- C3's witness: with `windowSize = 5`, `tipHeight = 10` and height 12
pending, a block at height `10 + 5 + 1 = 16` is classified `Higher` and
discarded. -/
theorem Flush_classification_witness :
    Flush (fun _ => true) (some ⟨16⟩) ⟨{12}, 10, 5, 10⟩ =
      ((false, .higher), ⟨{12}, 10, 5, 10⟩, []) :=
  (Flush_classification ⟨{12}, 10, 5, 10⟩ (fun _ => true)).2.2.2.2.2
    (by decide) ⟨16⟩ (by decide)

/-- C1 counterexample: `tip = 0`, empty buffer, `windowSize = 1`; flushing the
block at height 1 while its commit fails yields `Valid`, but afterwards the
pending map no longer holds height 1 — the block accepted as `Valid` was
removed before the failed commit and is not restored, contradicting the claim
that it "remains in pending". -/
theorem Flush_failed_commit_drops_block :
    Flush (fun _ => false) (some ⟨1⟩) ⟨∅, 0, 1, 0⟩ =
      ((false, .valid), ⟨∅, 0, 1, 0⟩, [(1, false)]) ∧
    (1 : Nat) ∉ (Flush (fun _ => false) (some ⟨1⟩) ⟨∅, 0, 1, 0⟩).2.1.blocks := by
  refine ⟨by decide, by decide⟩

/-- C1 (amended): when the drain's commit fails at height `hf`, the drain
halts for this call; every earlier height of the drain was committed and the
chain tip covers it; `commitHeight` is the last successfully committed height
(unchanged when nothing was committed, `hf - 1` otherwise); the next expected
height is exactly `hf`; pending blocks strictly above `hf` remain (including
the freshly inserted block when its height exceeds `hf`); but the block at
`hf` itself has been removed from pending by the failed commit — it is lost
until some later flush re-receives it. -/
theorem Flush_commitFailure (ok : Nat → Bool) (blk : Blk) (b : blockBuffer)
    (c : Bool) (b' : blockBuffer) (tr tr0 : List (Nat × Bool)) (hf : Nat)
    (hfl : Flush ok (some blk) b = ((c, .valid), b', tr))
    (htr : tr = tr0 ++ [(hf, false)]) :
    (∀ p ∈ tr0, p.2 = true ∧ p.1 ≤ b'.tipHeight) ∧
    b'.tipHeight + 1 = hf ∧
    (tr0 = [] → b'.commitHeight = b.commitHeight) ∧
    (tr0 ≠ [] → b'.commitHeight = hf - 1) ∧
    hf ∉ b'.blocks ∧
    (∀ x ∈ b.blocks, hf < x → x ∈ b'.blocks) ∧
    (hf < blk.height → blk.height ∈ b'.blocks) := by
  have hvalid : (Flush ok (some blk) b).1.2 = .valid := by rw [hfl]
  obtain ⟨h1, h2, h3⟩ := Flush_valid_inv ok blk b hvalid
  obtain ⟨m, failed, clean, hres, htrc, htip, hsize, hcH, hmemb⟩ :=
    Flush_valid_char ok blk b h1 h2 h3
  have hb' : b' = (Flush ok (some blk) b).2.1 := by rw [hfl]
  have htr2 : tr = (Flush ok (some blk) b).2.2 := by rw [hfl]
  rw [htr2, htrc] at htr
  cases failed with
  | false =>
    exfalso
    simp only [if_neg (Bool.false_ne_true), List.append_nil] at htr
    have : (hf, false) ∈ (List.range' (b.tipHeight + 1) m).map (fun x => (x, true)) := by
      rw [htr]
      simp
    obtain ⟨x, _, hx⟩ := List.mem_map.mp this
    exact Bool.false_ne_true (congrArg Prod.snd hx).symm
  | true =>
    simp only [if_pos rfl] at htr
    obtain ⟨htr0, hlast⟩ := List.append_inj' htr.symm rfl
    have hhf : hf = b.tipHeight + 1 + m := by
      simpa using congrArg Prod.fst (List.head_eq_of_cons_eq hlast)
    constructor
    · intro p hp
      rw [htr0] at hp
      obtain ⟨x, hx, rfl⟩ := List.mem_map.mp hp
      have := List.mem_range'_1.mp hx
      refine ⟨rfl, ?_⟩
      rw [hb', htip]
      omega
    refine ⟨by rw [hb', htip]; omega, ?_, ?_, ?_, ?_, ?_⟩
    · intro h0
      rw [htr0] at h0
      have hm : m = 0 := by
        by_contra hm
        rw [List.map_eq_nil, List.range'_eq_nil] at h0
        exact hm h0
      rw [hb', hcH, if_pos hm]
    · intro h0
      rw [htr0] at h0
      have hm : m ≠ 0 := by
        intro hm
        apply h0
        rw [hm]
        simp
      rw [hb', hcH, if_neg hm, hhf]
      omega
    · intro hc
      rw [hb'] at hc
      rw [hmemb hf] at hc
      have := hc.2.1
      simp at this
      omega
    · intro x hx hgt
      rw [hb', hmemb x]
      refine ⟨Or.inr hx, ?_, ?_⟩
      · simp
        omega
      · intro _
        omega
    · intro hgt
      rw [hb', hmemb blk.height]
      refine ⟨Or.inl rfl, ?_, fun _ => h1⟩
      simp
      omega

/-- C1's witness: buffer with height 1 pending at `tip = 0`; flushing height 2
with commit succeeding at 1 and failing at 2: height 1 stays committed
(`commitHeight = 1 = 2 - 1`), the next expected height is 2, and the pending
map no longer holds the failed height 2. -/
theorem Flush_commitFailure_witness :
    ((⟨∅, 1, 3, 1⟩ : blockBuffer).tipHeight + 1 = 2) ∧
    ((2 : Nat) ∉ (⟨∅, 1, 3, 1⟩ : blockBuffer).blocks) ∧
    ((⟨∅, 1, 3, 1⟩ : blockBuffer).commitHeight = 2 - 1) :=
  have h := Flush_commitFailure (fun h => h == 1) ⟨2⟩ ⟨{1}, 0, 3, 0⟩ false
    ⟨∅, 1, 3, 1⟩ [(1, true), (2, false)] [(1, true)] 2 (by decide) rfl
  ⟨h.2.1, h.2.2.2.2.1, h.2.2.2.1 (by decide)⟩

/-- C6 counterexample: flushing the same block (height 1, `tip = 0`,
`windowSize = 1`) twice with commits succeeding yields `Valid` then `Lower`,
not `Valid` then `Existing` — the first call's drain committed the block, so
the duplicate is stale relative to the advanced tip. -/
theorem Flush_reflush_counterexample :
    (Flush (fun _ => true) (some ⟨1⟩) ⟨∅, 0, 1, 0⟩).1.2 = .valid ∧
    (Flush (fun _ => true) (some ⟨1⟩)
      ((Flush (fun _ => true) (some ⟨1⟩) ⟨∅, 0, 1, 0⟩).2.1)).1.2 = .lower ∧
    bCheckinResult.lower ≠ bCheckinResult.existing := by
  refine ⟨by decide, by decide, by decide⟩

/-- C6 (amended): when the first flush of a block yields `Valid` and leaves
the block in pending (its height was not reached by the drain), flushing the
same block again yields `Existing`, and the state after the second call is
identical to the state after the first — the duplicate has no observable side
effect. -/
theorem Flush_reflush_existing (ok ok2 : Nat → Bool) (blk : Blk) (b : blockBuffer)
    (c : Bool) (b1 : blockBuffer) (tr : List (Nat × Bool))
    (hfl : Flush ok (some blk) b = ((c, .valid), b1, tr))
    (hpend : blk.height ∈ b1.blocks) :
    Flush ok2 (some blk) b1 = ((false, .existing), b1, []) := by
  have hvalid : (Flush ok (some blk) b).1.2 = .valid := by rw [hfl]
  obtain ⟨h1, h2, h3⟩ := Flush_valid_inv ok blk b hvalid
  obtain ⟨m, failed, clean, hres, htrc, htip, hsize, hcH, hmemb⟩ :=
    Flush_valid_char ok blk b h1 h2 h3
  have hb1 : b1 = (Flush ok (some blk) b).2.1 := by rw [hfl]
  have htip1 : b1.tipHeight = b.tipHeight + m := by rw [hb1, htip]
  have hmem1 := (hmemb blk.height).mp (by rw [← hb1]; exact hpend)
  have hgt : b1.tipHeight < blk.height := by
    rcases hmem1 with ⟨_, hnr, _⟩
    rw [htip1]
    rcases failed with _ | _ <;> simp at hnr <;> omega
  exact Flush_existing ok2 blk b1 hgt hpend

/-- C6's witness: height 2 flushed at `tip = 0` stays pending (gap at 1);
the second flush of the same block yields `Existing` with unchanged state. -/
theorem Flush_reflush_existing_witness :
    Flush (fun _ => true) (some ⟨2⟩) ⟨{2}, 0, 2, 0⟩ =
      ((false, .existing), ⟨{2}, 0, 2, 0⟩, []) :=
  Flush_reflush_existing (fun _ => true) (fun _ => true) ⟨2⟩ ⟨∅, 0, 2, 0⟩
    false ⟨{2}, 0, 2, 0⟩ [] (by decide) (by decide)

/-! ## Trace and commit-height facts across call sequences -/

/-- Per-call trace bounds: every height passed to commit lies above the
pre-call tip; every successfully committed height is covered by the post-call
tip; the tip never decreases; and the heights in one call's trace are
strictly increasing. -/
theorem Flush_trace_facts (ok : Nat → Bool) (blk : Option Blk) (b : blockBuffer) :
    b.tipHeight ≤ (Flush ok blk b).2.1.tipHeight ∧
    (∀ p ∈ (Flush ok blk b).2.2, b.tipHeight < p.1) ∧
    (∀ p ∈ (Flush ok blk b).2.2, p.2 = true → p.1 ≤ (Flush ok blk b).2.1.tipHeight) ∧
    List.Pairwise (fun p q : Nat × Bool => p.1 < q.1) (Flush ok blk b).2.2 := by
  match blk with
  | none =>
    rw [Flush_none]
    simp
  | some blk =>
    by_cases hA : blk.height ≤ b.tipHeight
    · rw [Flush_lower ok blk b hA]; simp
    · by_cases hB : blk.height ∈ b.blocks
      · rw [Flush_existing ok blk b (by omega) hB]; simp
      · by_cases hC : blk.height ≤ b.tipHeight + b.size
        · obtain ⟨m, failed, clean, hres, htrc, htip, hsize, hcH, hmemb⟩ :=
            Flush_valid_char ok blk b (by omega) hB hC
          rw [htrc, htip]
          refine ⟨by omega, ?_, ?_, ?_⟩
          · intro p hp
            rcases List.mem_append.mp hp with hp | hp
            · obtain ⟨x, hx, rfl⟩ := List.mem_map.mp hp
              have := List.mem_range'_1.mp hx
              simp
              omega
            · rcases failed with _ | _ <;> simp at hp
              subst hp
              simp <;> omega
          · intro p hp hps
            rcases List.mem_append.mp hp with hp | hp
            · obtain ⟨x, hx, rfl⟩ := List.mem_map.mp hp
              have := List.mem_range'_1.mp hx
              simp
              omega
            · rcases failed with _ | _ <;> simp at hp
              exfalso
              subst hp
              exact Bool.false_ne_true hps
          · apply List.pairwise_append.mpr
            refine ⟨?_, ?_, ?_⟩
            · exact (List.pairwise_lt_range' _ _).map _ (fun a b h => h)
            · rcases failed with _ | _ <;> simp
            · intro p hp q hq
              obtain ⟨x, hx, rfl⟩ := List.mem_map.mp hp
              have := List.mem_range'_1.mp hx
              rcases failed with _ | _ <;> simp at hq
              subst hq
              simp <;> omega
        · rw [Flush_higher ok blk b (by omega) hB (by omega)]; simp

theorem runFlushes_cons (c : (Nat → Bool) × Option Blk)
    (cs : List ((Nat → Bool) × Option Blk)) (b : blockBuffer) :
    runFlushes (c :: cs) b =
      ((runFlushes cs (Flush c.1 c.2 b).2.1).1,
       (Flush c.1 c.2 b).2.2 ++ (runFlushes cs (Flush c.1 c.2 b).2.1).2) := rfl

theorem runFlushes_tip_mono (cs : List ((Nat → Bool) × Option Blk)) :
    ∀ b : blockBuffer, b.tipHeight ≤ (runFlushes cs b).1.tipHeight := by
  induction cs with
  | nil => intro b; exact le_refl _
  | cons c cs ih =>
    intro b
    rw [runFlushes_cons]
    exact le_trans (Flush_trace_facts c.1 c.2 b).1 (ih _)

theorem runFlushes_trace_gt (cs : List ((Nat → Bool) × Option Blk)) :
    ∀ (b : blockBuffer) (p : Nat × Bool), p ∈ (runFlushes cs b).2 → b.tipHeight < p.1 := by
  induction cs with
  | nil => intro b p hp; simp [runFlushes] at hp
  | cons c cs ih =>
    intro b p hp
    rw [runFlushes_cons] at hp
    rcases List.mem_append.mp hp with hp | hp
    · exact (Flush_trace_facts c.1 c.2 b).2.1 p hp
    · exact lt_of_le_of_lt (Flush_trace_facts c.1 c.2 b).1 (ih _ p hp)

theorem runFlushes_success_le_tip (cs : List ((Nat → Bool) × Option Blk)) :
    ∀ (b : blockBuffer) (p : Nat × Bool), p ∈ (runFlushes cs b).2 → p.2 = true →
      p.1 ≤ (runFlushes cs b).1.tipHeight := by
  induction cs with
  | nil => intro b p hp; simp [runFlushes] at hp
  | cons c cs ih =>
    intro b p hp hps
    rw [runFlushes_cons] at hp ⊢
    rcases List.mem_append.mp hp with hp | hp
    · exact le_trans ((Flush_trace_facts c.1 c.2 b).2.2.1 p hp hps) (runFlushes_tip_mono cs _)
    · exact ih _ p hp hps

/-- C2 (amended): across every sequence of `flush` calls — any order, any
duplicates, commits failing arbitrarily — the heights at which
`ChainView.commit` *succeeds* are strictly increasing, so each height is
successfully committed at most once (no double-commit).  A height whose commit
failed may be passed to commit again by a later flush, which is why the
success filter is needed. -/
theorem runFlushes_no_double_commit (b : blockBuffer)
    (cs : List ((Nat → Bool) × Option Blk)) :
    List.Pairwise (fun p q : Nat × Bool => p.1 < q.1)
      ((runFlushes cs b).2.filter (fun p => p.2)) ∧
    (((runFlushes cs b).2.filter (fun p => p.2)).map Prod.fst).Nodup := by
  have hpw : List.Pairwise (fun p q : Nat × Bool => p.1 < q.1)
      ((runFlushes cs b).2.filter (fun p => p.2)) := by
    induction cs generalizing b with
    | nil => simp [runFlushes]
    | cons c cs ih =>
      rw [runFlushes_cons, List.filter_append]
      apply List.pairwise_append.mpr
      refine ⟨(Flush_trace_facts c.1 c.2 b).2.2.2.filter _, ih _, ?_⟩
      intro p hp q hq
      have hp1 := List.mem_filter.mp hp
      have hq1 := List.mem_filter.mp hq
      have hple : p.1 ≤ (Flush c.1 c.2 b).2.1.tipHeight :=
        (Flush_trace_facts c.1 c.2 b).2.2.1 p hp1.1 hp1.2
      have hqgt : (Flush c.1 c.2 b).2.1.tipHeight < q.1 :=
        runFlushes_trace_gt cs _ q hq1.1
      omega
  refine ⟨hpw, List.pairwise_map.mpr (hpw.imp ?_)⟩
  intro p q h
  omega

/-- C2 counterexample: `tip = 0`, `windowSize = 1`; flush height 1 with its
commit failing, then flush the same height again with commit succeeding: the
code passes height 1 to `ChainView.commit` twice (the failed height was
deleted from pending, so the re-received block is `Valid` again). -/
theorem runFlushes_double_commit_after_failure :
    ((runFlushes [(fun _ => false, some ⟨1⟩), (fun _ => true, some ⟨1⟩)]
        ⟨∅, 0, 1, 0⟩).2.map Prod.fst = [1, 1]) ∧
    ¬ ((runFlushes [(fun _ => false, some ⟨1⟩), (fun _ => true, some ⟨1⟩)]
        ⟨∅, 0, 1, 0⟩).2.map Prod.fst).Nodup := by
  refine ⟨by decide, by decide⟩

/-- Per-call commit-height facts: under the invariant
`commitHeight ≤ tipHeight`, one `Flush` call never decreases `commitHeight`
and re-establishes the invariant. -/
theorem Flush_commitHeight_facts (ok : Nat → Bool) (blk : Option Blk) (b : blockBuffer)
    (hinv : b.commitHeight ≤ b.tipHeight) :
    b.commitHeight ≤ (Flush ok blk b).2.1.commitHeight ∧
    (Flush ok blk b).2.1.commitHeight ≤ (Flush ok blk b).2.1.tipHeight := by
  match blk with
  | none => rw [Flush_none]; exact ⟨le_refl _, hinv⟩
  | some blk =>
    by_cases hA : blk.height ≤ b.tipHeight
    · rw [Flush_lower ok blk b hA]; exact ⟨le_refl _, hinv⟩
    · by_cases hB : blk.height ∈ b.blocks
      · rw [Flush_existing ok blk b (by omega) hB]; exact ⟨le_refl _, hinv⟩
      · by_cases hC : blk.height ≤ b.tipHeight + b.size
        · obtain ⟨m, failed, clean, hres, htrc, htip, hsize, hcH, hmemb⟩ :=
            Flush_valid_char ok blk b (by omega) hB hC
          rw [hcH, htip]
          rcases Nat.eq_zero_or_pos m with h0 | hpos
          · simp [h0]; omega
          · have hm : m ≠ 0 := by omega
            simp [hm]
            omega
        · rw [Flush_higher ok blk b (by omega) hB (by omega)]; exact ⟨le_refl _, hinv⟩

/-- C5: starting from any state satisfying the mirror invariant
`commitHeight ≤ tipHeight` (true of a freshly created buffer and preserved by
every call), `commitHeight()` is non-decreasing across every sequence of
`flush` calls, whatever blocks they carry and whatever `ChainView.commit`
returns. -/
theorem runFlushes_commitHeight_mono (b : blockBuffer)
    (cs : List ((Nat → Bool) × Option Blk))
    (hinv : b.commitHeight ≤ b.tipHeight) :
    CommitHeight b ≤ CommitHeight (runFlushes cs b).1 ∧
    CommitHeight (runFlushes cs b).1 ≤ (runFlushes cs b).1.tipHeight := by
  induction cs generalizing b with
  | nil => exact ⟨le_refl _, hinv⟩
  | cons c cs ih =>
    rw [runFlushes_cons]
    have hstep := Flush_commitHeight_facts c.1 c.2 b hinv
    have hrest := ih (Flush c.1 c.2 b).2.1 hstep.2
    exact ⟨le_trans hstep.1 hrest.1, hrest.2⟩

/-- C5's witness: a concrete two-call sequence (commit of height 1 succeeds,
then a duplicate flush) never decreases the commit height from 0. -/
theorem runFlushes_commitHeight_mono_witness :
    CommitHeight (⟨∅, 0, 1, 0⟩ : blockBuffer) ≤
      CommitHeight (runFlushes [(fun _ => true, some ⟨1⟩), (fun _ => true, some ⟨1⟩)]
        ⟨∅, 0, 1, 0⟩).1 :=
  (runFlushes_commitHeight_mono ⟨∅, 0, 1, 0⟩
    [(fun _ => true, some ⟨1⟩), (fun _ => true, some ⟨1⟩)] (by decide)).1

/-! ## Correctness of GetBlocksIntervalsToSync -/

theorem chain'_append_single {α : Type} {R : α → α → Prop} {l : List α} {a : α}
    (h : List.Chain' R l) (h2 : ∀ x ∈ l, R x a) : List.Chain' R (l ++ [a]) := by
  apply List.chain'_append.mpr
  refine ⟨h, List.chain'_singleton a, ?_⟩
  intro x hx y hy
  simp at hy
  subst hy
  exact h2 x (List.mem_of_mem_getLast? hx)

/-- The invariant of the scanning loop of `GetBlocksIntervalsToSync` after
processing the heights in `[lo, c)`: the accumulated intervals are ordered and
separated by present heights, every interval closes just below a present
height, and together with the currently open run `[start, c)` (when
`startSet`) they cover exactly the missing heights of `[lo, c)`. -/
def GInv (blocks : Finset Nat) (lo c start : Nat) (startSet : Bool)
    (bi : List syncBlocksInterval) : Prop :=
  lo ≤ c ∧
  (startSet = true → start < c) ∧
  (startSet = true → ∀ iv ∈ bi, iv.End + 1 < start) ∧
  List.Chain' (fun a b => a.End + 1 < b.Start) bi ∧
  (∀ iv ∈ bi, iv.Start ≤ iv.End) ∧
  (∀ iv ∈ bi, iv.End + 1 ∈ blocks ∧ iv.End + 1 < c) ∧
  (∀ x : Nat, ((∃ iv ∈ bi, iv.Start ≤ x ∧ x ≤ iv.End) ∨
      (startSet = true ∧ start ≤ x ∧ x < c)) ↔
    (lo ≤ x ∧ x < c ∧ x ∉ blocks))

theorem gbitsLoop_inv (blocks : Finset Nat) (lo : Nat) :
    ∀ (n c start : Nat) (startSet : Bool) (bi : List syncBlocksInterval),
    GInv blocks lo c start startSet bi →
    GInv blocks lo (c + n)
      (gbitsLoop blocks (List.range' c n) start startSet bi).1
      (gbitsLoop blocks (List.range' c n) start startSet bi).2.1
      (gbitsLoop blocks (List.range' c n) start startSet bi).2.2 := by
  intro n
  induction n with
  | zero =>
    intro c start startSet bi h
    simpa [gbitsLoop] using h
  | succ n ih =>
    intro c start startSet bi h
    obtain ⟨g1, g2, g3, g4, g5, g6, g7⟩ := h
    rw [List.range'_succ]
    have hgoal : c + (n + 1) = (c + 1) + n := by omega
    rw [hgoal]
    by_cases hc : c ∈ blocks
    · have hstep : gbitsLoop blocks (c :: List.range' (c + 1) n) start startSet bi =
          gbitsLoop blocks (List.range' (c + 1) n) start false
            (if startSet then bi ++ [⟨start, c - 1⟩] else bi) := by
        cases startSet with
        | false =>
          simp only [gbitsLoop, if_neg (not_not_intro hc)]
          simp
        | true =>
          simp only [gbitsLoop, if_neg (not_not_intro hc)]
          simp
      rw [hstep]
      cases startSet with
      | false =>
        simp only [if_neg (Bool.false_ne_true)]
        apply ih
        refine ⟨by omega, by simp, by simp, g4, g5, ?_, ?_⟩
        · intro iv hiv
          have := g6 iv hiv
          exact ⟨this.1, by omega⟩
        · intro x
          have h7 := g7 x
          simp only [Bool.false_eq_true, false_and, or_false] at h7 ⊢
          constructor
          · intro hcov
            have := h7.mp hcov
            exact ⟨this.1, by omega, this.2.2⟩
          · rintro ⟨hlo, hlt, hnb⟩
            have hxc : x ≠ c := fun he => hnb (he ▸ hc)
            exact h7.mpr ⟨hlo, by omega, hnb⟩
      | true =>
        simp only [if_pos rfl]
        apply ih
        have hsc : start < c := g2 rfl
        refine ⟨by omega, by simp, by simp, ?_, ?_, ?_, ?_⟩
        · exact chain'_append_single g4 (fun iv hiv => g3 rfl iv hiv)
        · intro iv hiv
          rcases List.mem_append.mp hiv with hiv | hiv
          · exact g5 iv hiv
          · simp at hiv
            subst hiv
            simp
            omega
        · intro iv hiv
          rcases List.mem_append.mp hiv with hiv | hiv
          · have := g6 iv hiv
            exact ⟨this.1, by omega⟩
          · simp at hiv
            subst hiv
            simp
            constructor
            · have hc1 : c - 1 + 1 = c := by omega
              rw [hc1]
              exact hc
            · omega
        · intro x
          have h7 := g7 x
          constructor
          · rintro (hcov | hfalse)
            · rcases hcov with ⟨iv, hiv, hx⟩
              rcases List.mem_append.mp hiv with hiv | hiv
              · have := h7.mp (Or.inl ⟨iv, hiv, hx⟩)
                exact ⟨this.1, by omega, this.2.2⟩
              · simp at hiv
                subst hiv
                simp at hx
                have := h7.mp (Or.inr ⟨rfl, hx.1, by omega⟩)
                exact ⟨this.1, by omega, this.2.2⟩
            · simp at hfalse
          · rintro ⟨hlo, hlt, hnb⟩
            have hxc : x ≠ c := fun he => hnb (he ▸ hc)
            have := h7.mpr ⟨hlo, by omega, hnb⟩
            rcases this with ⟨iv, hiv, hx⟩ | ⟨_, hx1, hx2⟩
            · exact Or.inl ⟨iv, List.mem_append.mpr (Or.inl hiv), hx⟩
            · refine Or.inl ⟨⟨start, c - 1⟩, List.mem_append.mpr (Or.inr (by simp)), ?_⟩
              simp
              omega
    · cases startSet with
      | false =>
        have hstep : gbitsLoop blocks (c :: List.range' (c + 1) n) start false bi =
            gbitsLoop blocks (List.range' (c + 1) n) c true bi := by
          simp only [gbitsLoop, if_pos hc]
          simp
        rw [hstep]
        apply ih
        refine ⟨by omega, fun _ => by omega, ?_, g4, g5, ?_, ?_⟩
        · intro _ iv hiv
          exact (g6 iv hiv).2
        · intro iv hiv
          have := g6 iv hiv
          exact ⟨this.1, by omega⟩
        · intro x
          have h7 := g7 x
          simp only [Bool.false_eq_true, false_and, or_false] at h7
          constructor
          · rintro (hcov | ⟨_, hx1, hx2⟩)
            · have := h7.mp hcov
              exact ⟨this.1, by omega, this.2.2⟩
            · have hxc : x = c := by omega
              subst hxc
              exact ⟨g1, by omega, hc⟩
          · rintro ⟨hlo, hlt, hnb⟩
            by_cases hxc : x = c
            · subst hxc
              exact Or.inr ⟨rfl, le_refl _, by omega⟩
            · exact Or.inl (h7.mpr ⟨hlo, by omega, hnb⟩)
      | true =>
        have hstep : gbitsLoop blocks (c :: List.range' (c + 1) n) start true bi =
            gbitsLoop blocks (List.range' (c + 1) n) start true bi := by
          simp only [gbitsLoop, if_pos hc]
          simp
        rw [hstep]
        apply ih
        have hsc : start < c := g2 rfl
        refine ⟨by omega, fun _ => by omega, fun _ => g3 rfl, g4, g5, ?_, ?_⟩
        · intro iv hiv
          have := g6 iv hiv
          exact ⟨this.1, by omega⟩
        · intro x
          have h7 := g7 x
          constructor
          · rintro (hcov | ⟨_, hx1, hx2⟩)
            · have := h7.mp (Or.inl hcov)
              exact ⟨this.1, by omega, this.2.2⟩
            · by_cases hxc : x = c
              · subst hxc
                exact ⟨g1, by omega, hc⟩
              · have := h7.mp (Or.inr ⟨rfl, hx1, by omega⟩)
                exact ⟨this.1, by omega, this.2.2⟩
          · rintro ⟨hlo, hlt, hnb⟩
            by_cases hxc : x = c
            · subst hxc
              exact Or.inr ⟨rfl, by omega, by omega⟩
            · rcases h7.mpr ⟨hlo, by omega, hnb⟩ with hcov | ⟨_, hx1, hx2⟩
              · exact Or.inl hcov
              · exact Or.inr ⟨rfl, hx1, by omega⟩

/-- Correctness of the scan plus the trailing "handle last block" step over
the height range `[lo, T]`: the produced intervals are ascending and disjoint,
non-degenerate, and cover exactly the heights of `[lo, T]` absent from
`blocks`. -/
theorem gbits_scan_correct (blocks : Finset Nat) (lo T : Nat) (hlo : lo ≤ T)
    (r : Nat × Bool × List syncBlocksInterval)
    (hr : r = gbitsLoop blocks (List.range' lo (T + 1 - lo)) 0 false [])
    (out : List syncBlocksInterval)
    (hout : out = if T ∉ blocks then r.2.2 ++ [⟨(if !r.2.1 then T else r.1), T⟩] else r.2.2) :
    List.Chain' (fun i j => i.End < j.Start) out ∧
    (∀ iv ∈ out, iv.Start ≤ iv.End) ∧
    (∀ x : Nat, (∃ iv ∈ out, iv.Start ≤ x ∧ x ≤ iv.End) ↔ (lo ≤ x ∧ x ≤ T ∧ x ∉ blocks)) := by
  have hinv0 : GInv blocks lo lo 0 false [] := by
    refine ⟨le_refl _, by simp, by simp, List.chain'_nil, by simp, by simp, ?_⟩
    intro x
    simp
    omega
  have hfin := gbitsLoop_inv blocks lo (T + 1 - lo) lo 0 false [] hinv0
  have hc : lo + (T + 1 - lo) = T + 1 := by omega
  rw [hc, ← hr] at hfin
  obtain ⟨g1, g2, g3, g4, g5, g6, g7⟩ := hfin
  by_cases hTb : T ∈ blocks
  · have hss : r.2.1 = false := by
      cases hrb : r.2.1
      · rfl
      · exfalso
        have hlt := g2 hrb
        have := (g7 T).mp (Or.inr ⟨hrb, by omega, by omega⟩)
        exact this.2.2 hTb
    rw [hout, if_neg (not_not_intro hTb)]
    refine ⟨g4.imp (fun h => by omega), g5, ?_⟩
    intro x
    have h7 := g7 x
    rw [hss] at h7
    simp only [Bool.false_eq_true, false_and, or_false] at h7
    rw [h7]
    constructor
    · rintro ⟨h1, h2, h3⟩
      exact ⟨h1, by omega, h3⟩
    · rintro ⟨h1, h2, h3⟩
      have hxT : x ≠ T := fun he => h3 (he ▸ hTb)
      exact ⟨h1, by omega, h3⟩
  · rw [hout, if_pos hTb]
    cases hrb : r.2.1 with
    | true =>
      have hsc : r.1 < T + 1 := g2 hrb
      rw [show (if (!true) = true then T else r.1) = r.1 from rfl]
      refine ⟨?_, ?_, ?_⟩
      · apply chain'_append_single (g4.imp (fun h => by omega))
        intro iv hiv
        have := g3 hrb iv hiv
        simp
        omega
      · intro iv hiv
        rcases List.mem_append.mp hiv with hiv | hiv
        · exact g5 iv hiv
        · simp at hiv
          subst hiv
          simp
          omega
      · intro x
        have h7 := g7 x
        constructor
        · rintro ⟨iv, hiv, hx⟩
          rcases List.mem_append.mp hiv with hiv | hiv
          · have := h7.mp (Or.inl ⟨iv, hiv, hx⟩)
            exact ⟨this.1, by omega, this.2.2⟩
          · simp at hiv
            subst hiv
            simp at hx
            have := h7.mp (Or.inr ⟨hrb, hx.1, by omega⟩)
            exact ⟨this.1, by omega, this.2.2⟩
        · rintro ⟨h1, h2, h3⟩
          by_cases hxT : x = T
          · subst hxT
            refine ⟨⟨r.1, x⟩, List.mem_append.mpr (Or.inr (by simp)), ?_⟩
            simp
            omega
          · rcases h7.mpr ⟨h1, by omega, h3⟩ with ⟨iv, hiv, hx⟩ | ⟨_, hx1, hx2⟩
            · exact ⟨iv, List.mem_append.mpr (Or.inl hiv), hx⟩
            · refine ⟨⟨r.1, T⟩, List.mem_append.mpr (Or.inr (by simp)), ?_⟩
              simp
              omega
    | false =>
      rw [show (if (!false) = true then T else r.1) = T from rfl]
      refine ⟨?_, ?_, ?_⟩
      · apply chain'_append_single (g4.imp (fun h => by omega))
        intro iv hiv
        have := (g6 iv hiv).2
        simp
        omega
      · intro iv hiv
        rcases List.mem_append.mp hiv with hiv | hiv
        · exact g5 iv hiv
        · simp at hiv
          subst hiv
          simp
      · intro x
        have h7 := g7 x
        rw [hrb] at h7
        simp only [Bool.false_eq_true, false_and, or_false] at h7
        constructor
        · rintro ⟨iv, hiv, hx⟩
          rcases List.mem_append.mp hiv with hiv | hiv
          · have := h7.mp ⟨iv, hiv, hx⟩
            exact ⟨this.1, by omega, this.2.2⟩
          · simp at hiv
            subst hiv
            simp at hx
            have hxT : x = T := by omega
            subst hxT
            exact ⟨hlo, le_refl _, hTb⟩
        · rintro ⟨h1, h2, h3⟩
          by_cases hxT : x = T
          · subst hxT
            exact ⟨⟨x, x⟩, List.mem_append.mpr (Or.inr (by simp)), by simp⟩
          · obtain ⟨iv, hiv, hx⟩ := h7.mpr ⟨h1, by omega, h3⟩
            exact ⟨iv, List.mem_append.mpr (Or.inl hiv), hx⟩

/-- C4 counterexample: with `windowSize = 0`, `tip = 5`, empty pending and
`targetHeight = 6`, the code returns the interval `[5, 5]`, which covers
height 5 even though the claimed union `[tipHeight+1, min(target, tip+window)]
minus pending` is empty — height 5 is not in `[6, 5]`. -/
theorem GetBlocksIntervalsToSync_counterexample :
    GetBlocksIntervalsToSync ⟨∅, 5, 0, 0⟩ 6 = [⟨5, 5⟩] ∧
    (∃ iv ∈ GetBlocksIntervalsToSync ⟨∅, 5, 0, 0⟩ 6, iv.Start ≤ 5 ∧ 5 ≤ iv.End) ∧
    ¬ (5 + 1 ≤ 5 ∧ 5 ≤ min 6 (5 + 0) ∧ 5 ∉ (∅ : Finset Nat)) := by
  refine ⟨by decide, by decide, by decide⟩

/-- C4 (amended): provided `windowSize ≥ 1`, `GetBlocksIntervalsToSync`
returns an empty sequence when `tipHeight ≥ targetHeight`, and otherwise a
sequence of disjoint, ascending, non-overlapping closed intervals whose union
is exactly the set of heights in
`[tipHeight+1, min(targetHeight, tipHeight+windowSize)]` with no entry in
pending.  (With `windowSize = 0` the trailing "handle last block" step emits
the spurious interval `[tip, tip]`, hence the hypothesis.) -/
theorem GetBlocksIntervalsToSync_correct (b : blockBuffer) (targetHeight : Nat)
    (hsize : 1 ≤ b.size) :
    (targetHeight ≤ b.tipHeight → GetBlocksIntervalsToSync b targetHeight = []) ∧
    List.Chain' (fun i j => i.End < j.Start) (GetBlocksIntervalsToSync b targetHeight) ∧
    (∀ iv ∈ GetBlocksIntervalsToSync b targetHeight, iv.Start ≤ iv.End) ∧
    (∀ x : Nat,
      (∃ iv ∈ GetBlocksIntervalsToSync b targetHeight, iv.Start ≤ x ∧ x ≤ iv.End) ↔
      (b.tipHeight + 1 ≤ x ∧ x ≤ min targetHeight (b.tipHeight + b.size) ∧ x ∉ b.blocks)) := by
  by_cases htrivial : b.tipHeight ≥ targetHeight
  · have hempty : GetBlocksIntervalsToSync b targetHeight = [] := by
      simp [GetBlocksIntervalsToSync, htrivial]
    rw [hempty]
    refine ⟨fun _ => rfl, List.chain'_nil, by simp, ?_⟩
    intro x
    constructor
    · rintro ⟨iv, hiv, _⟩
      exact absurd hiv (List.not_mem_nil iv)
    · rintro ⟨h1, h2, _⟩
      exfalso
      omega
  · have hlt : b.tipHeight < targetHeight := by omega
    have hbody : GetBlocksIntervalsToSync b targetHeight =
        (if (if targetHeight > b.tipHeight + b.size then b.tipHeight + b.size
              else targetHeight) ∉ b.blocks
         then (gbitsLoop b.blocks
                (List.range' (b.tipHeight + 1)
                  ((if targetHeight > b.tipHeight + b.size then b.tipHeight + b.size
                    else targetHeight) - b.tipHeight)) 0 false []).2.2 ++
            [⟨(if !(gbitsLoop b.blocks
                  (List.range' (b.tipHeight + 1)
                    ((if targetHeight > b.tipHeight + b.size then b.tipHeight + b.size
                      else targetHeight) - b.tipHeight)) 0 false []).2.1
               then (if targetHeight > b.tipHeight + b.size then b.tipHeight + b.size
                     else targetHeight)
               else (gbitsLoop b.blocks
                  (List.range' (b.tipHeight + 1)
                    ((if targetHeight > b.tipHeight + b.size then b.tipHeight + b.size
                      else targetHeight) - b.tipHeight)) 0 false []).1),
              (if targetHeight > b.tipHeight + b.size then b.tipHeight + b.size
               else targetHeight)⟩]
         else (gbitsLoop b.blocks
                (List.range' (b.tipHeight + 1)
                  ((if targetHeight > b.tipHeight + b.size then b.tipHeight + b.size
                    else targetHeight) - b.tipHeight)) 0 false []).2.2) := by
      simp only [GetBlocksIntervalsToSync]
      rw [if_neg htrivial]
    set T : Nat := (if targetHeight > b.tipHeight + b.size then b.tipHeight + b.size
                    else targetHeight) with hTdef
    have hTmin : T = min targetHeight (b.tipHeight + b.size) := by
      rw [hTdef]
      split <;> omega
    have hloT : b.tipHeight + 1 ≤ T := by omega
    have hlen : T - b.tipHeight = T + 1 - (b.tipHeight + 1) := by omega
    rw [hlen] at hbody
    obtain ⟨hchain, hse, hcov⟩ :=
      gbits_scan_correct b.blocks (b.tipHeight + 1) T hloT
        (gbitsLoop b.blocks (List.range' (b.tipHeight + 1) (T + 1 - (b.tipHeight + 1)))
          0 false []) rfl
        (GetBlocksIntervalsToSync b targetHeight) hbody
    refine ⟨fun hc => absurd hc htrivial, hchain, hse, ?_⟩
    intro x
    rw [hcov x, hTmin]

/-- C4's witness: spec §8 scenario — `windowSize = 5`, `tip = 10`, height 12
pending, target 16: height 13 is reported as missing, matching the claimed
union. -/
theorem GetBlocksIntervalsToSync_correct_witness :
    (∃ iv ∈ GetBlocksIntervalsToSync ⟨{12}, 10, 5, 10⟩ 16, iv.Start ≤ 13 ∧ 13 ≤ iv.End) ↔
      (10 + 1 ≤ 13 ∧ 13 ≤ min 16 (10 + 5) ∧ 13 ∉ ({12} : Finset Nat)) :=
  (GetBlocksIntervalsToSync_correct ⟨{12}, 10, 5, 10⟩ 16 (by decide)).2.2.2 13
